import Mathlib

/-!
# Verification of the circom-scotia core

Shallow embedding of the two source files of the repository:

* `src/lib.rs` — the constraint synthesizer (`synthesize`, its `make_lc`
  closure), the witness-generation driver (`generate_witness_from_wasm`)
  and the locked witness calculation entry point (`calculate_witness`);
* `src/witness/mod.rs` — the FNV-1a signal-name hash (`fnv`).

The target constraint system (bellpepper's `ConstraintSystem`) is embedded as
an explicit state: a list of allocated auxiliary values together with their
namespace names, and a list of enforced multiplicative constraints
`left · right = output` over linear combinations.  Variables are either input
variables (only `Input 0`, the fixed constant `ONE`, ever occurs here, since
`synthesize` allocates with `alloc`, never `alloc_input`) or auxiliary
variables numbered in allocation order.  Fallible Rust operations (slice
indexing, which panics out of bounds) are embedded with `Option`.
-/

namespace CircomScotia

/-- Embedding of `bellpepper_core::Variable`: an input variable (index 0 is
the fixed constant `ONE`, i.e. `CS::one()`) or an auxiliary variable created
by `alloc`, numbered in allocation order. -/
inductive Variable where
  | input (i : Nat)
  | aux (i : Nat)
deriving DecidableEq, Repr

/-- The constant-one variable `CS::one()` of the constraint system. -/
def CS_one : Variable := Variable.input 0

/-- Embedding of `bellpepper_core::LinearCombination<F>`: a formal sum of
`coefficient * variable` terms, kept as the list of terms in the order they
were added. -/
abbrev LC (F : Type) : Type := List (Variable × F)

/-- Embedding of `bellpepper_core::num::AllocatedNum<F>`: the variable handed
back by the constraint system together with the value assigned to it. -/
structure AllocatedNum (F : Type) where
  var : Variable
  value : F
deriving DecidableEq, Repr

/-- The state of the embedded constraint system after synthesis: the
namespace names of the allocated variables, their assigned values (the `i`-th
entry is the value of `Variable.aux i`), and the enforced constraints, each a
triple `(left, right, output)` of linear combinations standing for
`left · right = output`. -/
structure CSstate (F : Type) where
  names : List String
  aux_values : List F
  constraints : List (LC F × LC F × LC F)
deriving DecidableEq

variable {F : Type} [CommRing F]

/-- Value of a variable under an assignment of the auxiliary variables.
`Input 0` is the constant `ONE`; no other input variable is ever allocated by
`synthesize`, so all input variables evaluate to `1`. -/
def evalVar (auxVals : List F) : Variable → F
  | Variable.input _ => 1
  | Variable.aux i => auxVals.getD i 0

/-- Value of a linear combination under an assignment of the auxiliary
variables: the sum of `coefficient * value` over its terms. -/
def evalLC (auxVals : List F) (l : LC F) : F :=
  l.foldl (fun acc t => acc + t.2 * evalVar auxVals t.1) 0

/-- The embedded constraint system is satisfied when every enforced triple
`(left, right, output)` evaluates with `left · right = output`. -/
def CSstate.satisfied (s : CSstate F) : Prop :=
  ∀ c ∈ s.constraints,
    evalLC s.aux_values c.1 * evalLC s.aux_values c.2.1 =
      evalLC s.aux_values c.2.2

instance (s : CSstate F) [DecidableEq F] : Decidable s.satisfied := by
  unfold CSstate.satisfied; infer_instance

/-- One R1CS constraint: three sparse linear combinations `(A, B, C)`, each a
list of `(variable index, coefficient)` pairs, encoding `A·z ∘ B·z = C·z`. -/
abbrev Constraint (F : Type) : Type :=
  List (Nat × F) × List (Nat × F) × List (Nat × F)

/-- Embedding of the `R1CS<F>` model consumed by `synthesize` (field names
and uses as in `src/lib.rs`): counts of public signals (`num_inputs`, index 0
reserved for the constant), auxiliary signals (`num_aux`), public outputs
(`num_pub_out`), and the ordered constraint triples. -/
structure R1CS (F : Type) where
  num_inputs : Nat
  num_aux : Nat
  num_pub_out : Nat
  constraints : List (Constraint F)

/-- Evaluation of one sparse linear combination of an R1CS constraint against
a full variable vector `z` (index 0 is the reserved constant slot). -/
def sparse_dot (l : List (Nat × F)) (z : List F) : F :=
  l.foldl (fun acc t => acc + t.2 * z.getD t.1 0) 0

/-- `A·z ∘ B·z = C·z` holds for every constraint triple of the model. -/
def R1CS.satisfied (r : R1CS F) (z : List F) : Prop :=
  ∀ t ∈ r.constraints, sparse_dot t.1 z * sparse_dot t.2.1 z = sparse_dot t.2.2 z

instance (r : R1CS F) (z : List F) [DecidableEq F] :
    Decidable (r.satisfied z) := by
  unfold R1CS.satisfied; infer_instance

/-- The values assigned by one of the two allocation loops of `synthesize`
(`src/lib.rs`, lines 195–218): for each loop step the value is the field's
one when no witness is supplied, and `witness[start + step]` otherwise, where
the witness is indexed exactly as the Rust code does (`w[i]`, panicking —
here `none` — when the index is out of bounds). -/
def getVals (witness : Option (List F)) : Nat → Nat → Option (List F)
  | _, 0 => some []
  | start, Nat.succ k => do
    let v ← match witness with
      | none => some (1 : F)
      | some w => w[start]?
    let rest ← getVals witness (start + 1) k
    pure (v :: rest)

/-- The allocated values of a synthesis run, in allocation order: the public
loop `for i in 1..num_inputs` reading `witness[i]`, followed by the auxiliary
loop `for i in 0..num_aux` reading `witness[i + num_inputs]`. -/
def allocated_vals (r : R1CS F) (witness : Option (List F)) :
    Option (List F) := do
  let pubVals ← getVals witness 1 (r.num_inputs - 1)
  let auxVals ← getVals witness r.num_inputs r.num_aux
  pure (pubVals ++ auxVals)

/-- Numbering a list of values as allocated nums: the `j`-th allocation is
the auxiliary variable `j` holding the `j`-th value (the `vars` vector of
`synthesize`). -/
def mk_vars (vals : List F) : List (AllocatedNum F) :=
  vals.enum.map fun p => { var := Variable.aux p.1, value := p.2 }

/-- The `vars` vector built by `synthesize` for a model and an optional
witness. -/
def allocated_vars (r : R1CS F) (witness : Option (List F)) :
    Option (List (AllocatedNum F)) :=
  (allocated_vals r witness).map mk_vars

/-- The namespace names used by the two allocation loops of `synthesize`, in
allocation order: `public_i` for `i` in `1..num_inputs`, then `aux_i` for `i`
in `0..num_aux`. -/
def var_names (r : R1CS F) : List String :=
  ((List.range (r.num_inputs - 1)).map fun i => s!"public_{i + 1}") ++
    ((List.range r.num_aux).map fun i => s!"aux_{i}")

/-- Embedding of the `make_lc` closure of `synthesize` (`src/lib.rs`, lines
228–240): fold the sparse terms in order; a term with index `0` contributes
`(CS::one(), coeff)`, a term with index `k > 0` contributes
`(vars[k-1].get_variable(), coeff)` — the Rust indexing `vars[k-1]` panics
out of bounds, embedded as `none`. -/
def make_lc (vars : List (AllocatedNum F)) : List (Nat × F) → Option (LC F)
  | [] => some []
  | (index, coeff) :: rest => do
    let term ←
      if index > 0 then
        (vars[index - 1]?).map fun v => (v.var, coeff)
      else
        some (CS_one, coeff)
    let tail ← make_lc vars rest
    pure (term :: tail)

/-- The constraint-enforcement loop of `synthesize` (`src/lib.rs`, lines
242–249): for each R1CS triple, in order, enforce one multiplicative
constraint whose left, right and output linear combinations are built by
`make_lc`. -/
def build_constraints (vars : List (AllocatedNum F)) :
    List (Constraint F) → Option (List (LC F × LC F × LC F))
  | [] => some []
  | t :: rest => do
    let la ← make_lc vars t.1
    let lb ← make_lc vars t.2.1
    let lc ← make_lc vars t.2.2
    let tail ← build_constraints vars rest
    pure ((la, lb, lc) :: tail)

/-- Embedding of `synthesize` (`src/lib.rs`, lines 186–252).  Allocates the
public variables `1..num_inputs` and the auxiliary variables `0..num_aux`
(valued from the witness when supplied, `F::ONE` otherwise), slices the
public outputs from `vars` according to `num_pub_out` (`vars[0]` for `1`,
`vars[0..num_pub_out-1]` otherwise — both panicking, here `none`, when out of
range), then enforces one constraint per R1CS triple.  Returns the final
constraint-system state together with the returned output variables. -/
def synthesize (r : R1CS F) (witness : Option (List F)) :
    Option (CSstate F × List (AllocatedNum F)) :=
  match allocated_vals r witness with
  | none => none
  | some vals =>
    let vars := mk_vars vals
    let output : Option (List (AllocatedNum F)) :=
      match r.num_pub_out with
      | 0 => some []
      | 1 => (vars[0]?).map fun v => [v]
      | n => if n - 1 ≤ vars.length then some (vars.take (n - 1)) else none
    match output with
    | none => none
    | some output =>
      match build_constraints vars r.constraints with
      | none => none
      | some constraints =>
        some (CSstate.mk (var_names r) vals constraints, output)

/-- The translation of one sparse R1CS linear combination described by the
specification: a term with index `0` contributes the constraint system's
constant-one term scaled by its coefficient, and a term with index `k > 0`
contributes the coefficient times the `(k-1)`-th allocated variable. -/
def spec_translated_lc (l : List (Nat × F)) : LC F :=
  l.map fun p => (if p.1 = 0 then CS_one else Variable.aux (p.1 - 1), p.2)

/-! ## The FNV-1a signal-name hash (`src/witness/mod.rs`, lines 28–34) -/

/-- UTF-8 encoding of one Unicode scalar value as its byte sequence, each
byte a `Nat` below 256 (the bytes `inp.as_bytes()` iterates over in Rust). -/
def utf8EncodeCharNat (c : Nat) : List Nat :=
  if c < 0x80 then [c]
  else if c < 0x800 then
    [0xC0 ||| (c >>> 6), 0x80 ||| (c &&& 0x3F)]
  else if c < 0x10000 then
    [0xE0 ||| (c >>> 12), 0x80 ||| ((c >>> 6) &&& 0x3F), 0x80 ||| (c &&& 0x3F)]
  else
    [0xF0 ||| (c >>> 18), 0x80 ||| ((c >>> 12) &&& 0x3F),
      0x80 ||| ((c >>> 6) &&& 0x3F), 0x80 ||| (c &&& 0x3F)]

/-- The UTF-8 bytes of a string (Rust `str::as_bytes`). -/
def strBytes (s : String) : List Nat :=
  (s.data.map fun c => utf8EncodeCharNat c.toNat).flatten

/-- The 64-bit FNV-1a offset basis, the initial state of
`fnv::FnvHasher::default()`. -/
def fnv_offset_basis : Nat := 0xcbf29ce484222325

/-- The 64-bit FNV prime used by `fnv::FnvHasher::write`. -/
def fnv_prime_64 : Nat := 0x100000001b3

/-- The 64-bit FNV-1a hash of a byte sequence: starting from the offset
basis, XOR in each byte then multiply by the FNV prime with wraparound at
`2^64` (`u64::wrapping_mul`). -/
def fnv1a64 (bytes : List Nat) : Nat :=
  bytes.foldl (fun h b => ((h ^^^ b) * fnv_prime_64) % 2 ^ 64) fnv_offset_basis

/-- Embedding of `fnv` (`src/witness/mod.rs`): hash the name's UTF-8 bytes
with 64-bit FNV-1a and return the pair `((h >> 32) as u32, h as u32)` —
the high and low 32-bit halves. -/
def fnv (inp : String) : Nat × Nat :=
  let h := fnv1a64 (strBytes inp)
  (h >>> 32, h % 2 ^ 32)

/-! ## The witness-generation driver (`src/lib.rs`, lines 85–124) -/

/-- The error kinds of `crate::error::WitnessError` used by `src/lib.rs`. -/
inductive WitnessError where
  | FileSystemError (msg : String)
  | FailedExecutionError (msg : String)
  | LoadWitnessError (msg : String)
  | WitnessCalculationError (msg : String)
  | MutexError
deriving DecidableEq, Repr

/-- The captured output of the external `node` command. -/
structure CmdOutput where
  stdout : String
  stderr : String
deriving DecidableEq, Repr

/-- The outcomes of the file-system and process effects performed by
`generate_witness_from_wasm`, passed in explicitly so the `IO`-performing
Rust function becomes a pure function of them: the current-directory lookup,
the write of `circom_input.json`, the `node` invocation, the removal of the
temporary input file, and the final load of the witness file. -/
structure WasmEnv (F : Type) where
  current_dir : Except String String
  write_input : Except String Unit
  run_node : Except String CmdOutput
  remove_input : Except String Unit
  load_witness : Except String (List F)

/-- Embedding of `generate_witness_from_wasm` (`src/lib.rs`, lines 85–124)
over the explicit effect outcomes: each fallible step either propagates its
error (mapped to the `WitnessError` kind the source maps it to) or continues;
the command output is printed when non-empty, and a failed removal of the
temporary input file is only printed as a warning.  Returns the result
together with the lines printed. -/
def generate_witness_from_wasm (env : WasmEnv F) :
    Except WitnessError (List F) × List String :=
  match env.current_dir with
  | Except.error err => (Except.error (WitnessError.FileSystemError err), [])
  | Except.ok _root =>
    match env.write_input with
    | Except.error err => (Except.error (WitnessError.FileSystemError err), [])
    | Except.ok _ =>
      match env.run_node with
      | Except.error err =>
        (Except.error (WitnessError.FailedExecutionError err), [])
      | Except.ok output =>
        let log := if output.stdout ≠ "" ∨ output.stderr ≠ "" then
            ["stdout: " ++ output.stdout, "stderr: " ++ output.stderr]
          else []
        let log := log ++ (match env.remove_input with
          | Except.error _ => ["warning: could not cleanup temporary files"]
          | Except.ok _ => [])
        match env.load_witness with
        | Except.error err => (Except.error (WitnessError.LoadWitnessError err), log)
        | Except.ok w => (Except.ok w, log)

/-! ## Concrete instances used by counterexamples and witnesses -/

/-- The scenario of §8 of the specification: one constraint `x · x = y`,
`num_inputs = 2` (constant + one public signal), `num_aux = 1`,
`num_pub_out = 1`.  The constraint reads variable 1 twice on the left and
right and variable 2 on the output, with coefficient one. -/
def squareR1CS : R1CS (ZMod 13) :=
  { num_inputs := 2, num_aux := 1, num_pub_out := 1,
    constraints := [([(1, 1)], [(1, 1)], [(2, 1)])] }

/-- The witness `[1, 3, 9]` of the §8 scenario (`x = 3`). -/
def squareWitness : List (ZMod 13) := [1, 3, 9]

/-- A model whose single constraint mentions only the reserved constant
index 0: `1·z₀ · 1·z₀ = 2·z₀`. -/
def constOnlyR1CS : R1CS (ZMod 13) :=
  { num_inputs := 1, num_aux := 0, num_pub_out := 0,
    constraints := [([(0, 1)], [(0, 1)], [(0, 2)])] }

/-- The allocated `vars` vector of the §8 scenario (values `[3, 9]`). -/
def squareVars : List (AllocatedNum (ZMod 13)) := mk_vars [3, 9]

/-- The constraint-system state produced by `synthesize` on the §8 scenario
with witness `[1, 3, 9]`. -/
def squareState : CSstate (ZMod 13) :=
  { names := ["public_1", "aux_0"]
    aux_values := [3, 9]
    constraints := [([(Variable.aux 0, 1)], [(Variable.aux 0, 1)],
      [(Variable.aux 1, 1)])] }

/-- The outputs returned by `synthesize` on the §8 scenario with witness
`[1, 3, 9]`: the single first public variable, valued `3`. -/
def squareOutput : List (AllocatedNum (ZMod 13)) :=
  [{ var := Variable.aux 0, value := 3 }]

/-- The constraint-system state produced by the setup-mode run
(`witness = None`) on the §8 scenario: same shape, all values one. -/
def squareNoneState : CSstate (ZMod 13) :=
  { names := ["public_1", "aux_0"]
    aux_values := [1, 1]
    constraints := [([(Variable.aux 0, 1)], [(Variable.aux 0, 1)],
      [(Variable.aux 1, 1)])] }

/-- The outputs returned by the setup-mode run on the §8 scenario. -/
def squareNoneOutput : List (AllocatedNum (ZMod 13)) :=
  [{ var := Variable.aux 0, value := 1 }]

/-- A concrete all-successful effect environment for the witness driver. -/
def demoWasmEnv : WasmEnv (ZMod 13) :=
  { current_dir := Except.ok "/tmp"
    write_input := Except.ok ()
    run_node := Except.ok { stdout := "", stderr := "" }
    remove_input := Except.ok ()
    load_witness := Except.ok [1, 3, 9] }

/-! ## Helper lemmas about the allocation loops -/

theorem getVals_none_eq (start cnt : Nat) :
    getVals (F := F) none start cnt = some (List.replicate cnt 1) := by
  induction cnt generalizing start with
  | zero => rfl
  | succ k ih => simp [getVals, ih, List.replicate_succ]

theorem getVals_some_inv {z vals : List F} {start cnt : Nat}
    (h : getVals (some z) start cnt = some vals) :
    vals.length = cnt ∧ ∀ i, i < cnt → vals[i]? = z[start + i]? := by
  induction cnt generalizing start vals with
  | zero =>
    simp only [getVals, Option.some_inj] at h
    subst h; simp
  | succ k ih =>
    simp only [getVals] at h
    cases hz : z[start]? with
    | none => rw [hz] at h; simp at h
    | some v =>
      rw [hz] at h
      cases hr : getVals (some z) (start + 1) k with
      | none => rw [hr] at h; simp at h
      | some rest =>
        rw [hr] at h
        simp at h
        obtain ⟨hlen, hidx⟩ := ih hr
        subst h
        refine ⟨by simp [hlen], ?_⟩
        intro i hi
        match i with
        | 0 => simpa using hz.symm
        | Nat.succ j =>
          have := hidx j (by omega)
          simpa [Nat.add_comm, Nat.add_left_comm, Nat.add_assoc] using this

theorem getVals_some_none {z : List F} {start cnt : Nat}
    (hlt : z.length < start + cnt) (hcnt : 0 < cnt) :
    getVals (some z) start cnt = none := by
  induction cnt generalizing start with
  | zero => omega
  | succ k ih =>
    simp only [getVals]
    cases hz : z[start]? with
    | none => simp
    | some v =>
      have hstart : start < z.length := by
        by_contra hc
        rw [List.getElem?_eq_none (by omega)] at hz
        exact Option.noConfusion hz
      cases k with
      | zero => omega
      | succ m => rw [ih (by omega) (by omega)]; simp

omit [CommRing F] in
theorem mk_vars_length (vals : List F) : (mk_vars vals).length = vals.length := by
  simp [mk_vars]

omit [CommRing F] in
theorem mk_vars_getElem (vals : List F) (j : Nat) :
    (mk_vars vals)[j]? =
      (vals[j]?).map fun v => { var := Variable.aux j, value := v } := by
  simp only [mk_vars, List.getElem?_map, List.getElem?_enum]
  cases vals[j]? <;> rfl

theorem allocated_vals_none (r : R1CS F) :
    allocated_vals r none =
      some (List.replicate ((r.num_inputs - 1) + r.num_aux) 1) := by
  unfold allocated_vals
  rw [getVals_none_eq, getVals_none_eq]
  show some _ = _
  rw [List.replicate_add]

theorem allocated_vals_some_inv {r : R1CS F} {z vals : List F}
    (h : allocated_vals r (some z) = some vals) :
    vals.length = (r.num_inputs - 1) + r.num_aux ∧
      (∀ i, i < r.num_inputs - 1 → vals[i]? = z[1 + i]?) ∧
      (∀ i, i < r.num_aux →
        vals[(r.num_inputs - 1) + i]? = z[r.num_inputs + i]?) := by
  unfold allocated_vals at h
  cases hp : getVals (some z) 1 (r.num_inputs - 1) with
  | none => rw [hp] at h; simp at h
  | some pubVals =>
    rw [hp] at h
    cases ha : getVals (some z) r.num_inputs r.num_aux with
    | none => rw [ha] at h; simp at h
    | some auxVals =>
      rw [ha] at h
      simp at h
      obtain ⟨hplen, hpidx⟩ := getVals_some_inv hp
      obtain ⟨halen, haidx⟩ := getVals_some_inv ha
      subst h
      refine ⟨by simp [hplen, halen], ?_, ?_⟩
      · intro i hi
        rw [List.getElem?_append_left (by omega)]
        exact hpidx i (by omega)
      · intro i hi
        rw [List.getElem?_append_right (by omega)]
        have := haidx i (by omega)
        rw [hplen]
        simpa [Nat.add_sub_cancel_left] using this

/-- Under a supplied witness, the `j`-th allocated value is `witness[j + 1]`:
the public loop shifts by one and, when the reserved constant slot exists
(`num_inputs ≥ 1`), the auxiliary loop continues the same shift. -/
theorem allocated_vals_corr {r : R1CS F} {z vals : List F}
    (h1 : 1 ≤ r.num_inputs)
    (h : allocated_vals r (some z) = some vals) :
    ∀ j, j < vals.length → vals[j]? = z[j + 1]? := by
  obtain ⟨hlen, hpub, haux⟩ := allocated_vals_some_inv h
  intro j hj
  rw [hlen] at hj
  by_cases hcase : j < r.num_inputs - 1
  · rw [hpub j hcase]
    congr 1
    omega
  · have hj2 : j - (r.num_inputs - 1) < r.num_aux := by omega
    have := haux (j - (r.num_inputs - 1)) hj2
    have hrw : (r.num_inputs - 1) + (j - (r.num_inputs - 1)) = j := by omega
    rw [hrw] at this
    rw [this]
    congr 1
    omega

/-! ## Helper lemmas about `make_lc` and the enforcement loop -/

omit [CommRing F] in
theorem make_lc_mk_vars_inv {vals : List F} {l : List (Nat × F)} {out : LC F}
    (h : make_lc (mk_vars vals) l = some out) :
    out = spec_translated_lc l ∧ ∀ p ∈ l, p.1 = 0 ∨ p.1 - 1 < vals.length := by
  induction l generalizing out with
  | nil =>
    simp only [make_lc, Option.some_inj] at h
    subst h
    simp [spec_translated_lc]
  | cons hd tl ih =>
    obtain ⟨index, coeff⟩ := hd
    simp only [make_lc] at h
    by_cases hpos : index > 0
    · rw [if_pos hpos] at h
      cases hv : (mk_vars vals)[index - 1]? with
      | none => rw [hv] at h; simp at h
      | some v =>
        rw [hv] at h
        cases ht : make_lc (mk_vars vals) tl with
        | none => rw [ht] at h; simp at h
        | some tail =>
          rw [ht] at h
          simp at h
          obtain ⟨htail, hb⟩ := ih ht
          rw [mk_vars_getElem] at hv
          obtain ⟨val, hval, hvv⟩ := Option.map_eq_some'.mp hv
          have hlt : index - 1 < vals.length := (List.getElem?_eq_some.mp hval).1
          subst h htail
          constructor
          · simp [spec_translated_lc, ← hvv, if_neg (by omega : ¬ index = 0)]
          · intro p hp
            rcases List.mem_cons.mp hp with hphd | hptl
            · subst hphd; exact Or.inr hlt
            · exact hb p hptl
    · rw [if_neg hpos] at h
      cases ht : make_lc (mk_vars vals) tl with
      | none => rw [ht] at h; simp at h
      | some tail =>
        rw [ht] at h
        simp at h
        obtain ⟨htail, hb⟩ := ih ht
        subst h htail
        constructor
        · simp [spec_translated_lc, if_pos (by omega : index = 0)]
        · intro p hp
          rcases List.mem_cons.mp hp with hphd | hptl
          · subst hphd; exact Or.inl (by omega)
          · exact hb p hptl

omit [CommRing F] in
theorem make_lc_mk_vars_eq {vals : List F} {l : List (Nat × F)}
    (hb : ∀ p ∈ l, p.1 = 0 ∨ p.1 - 1 < vals.length) :
    make_lc (mk_vars vals) l = some (spec_translated_lc l) := by
  induction l with
  | nil => rfl
  | cons hd tl ih =>
    obtain ⟨index, coeff⟩ := hd
    have hhd := hb (index, coeff) (List.mem_cons_self _ _)
    have htl : ∀ p ∈ tl, p.1 = 0 ∨ p.1 - 1 < vals.length := fun p hp =>
      hb p (List.mem_cons_of_mem _ hp)
    simp only [make_lc]
    by_cases hpos : index > 0
    · have hlt : index - 1 < vals.length := by
        rcases hhd with h0 | h
        · omega
        · exact h
      rw [if_pos hpos, mk_vars_getElem, List.getElem?_eq_getElem hlt, ih htl]
      show some _ = _
      simp [spec_translated_lc, if_neg (by omega : ¬ index = 0)]
    · rw [if_neg hpos, ih htl]
      show some _ = _
      simp [spec_translated_lc, if_pos (by omega : index = 0)]

/-- The translated form of a whole constraint triple. -/
def spec_translated (t : Constraint F) : LC F × LC F × LC F :=
  (spec_translated_lc t.1, spec_translated_lc t.2.1, spec_translated_lc t.2.2)

omit [CommRing F] in
theorem build_constraints_mk_vars_inv {vals : List F} {cs : List (Constraint F)}
    {res : List (LC F × LC F × LC F)}
    (h : build_constraints (mk_vars vals) cs = some res) :
    res = cs.map spec_translated ∧
      ∀ t ∈ cs, ∀ p ∈ t.1 ++ t.2.1 ++ t.2.2, p.1 = 0 ∨ p.1 - 1 < vals.length := by
  induction cs generalizing res with
  | nil =>
    simp only [build_constraints, Option.some_inj] at h
    subst h
    simp
  | cons t cs ih =>
    simp only [build_constraints] at h
    cases ha : make_lc (mk_vars vals) t.1 with
    | none => rw [ha] at h; simp at h
    | some la =>
      rw [ha] at h
      cases hb : make_lc (mk_vars vals) t.2.1 with
      | none => rw [hb] at h; simp at h
      | some lb =>
        rw [hb] at h
        cases hc : make_lc (mk_vars vals) t.2.2 with
        | none => rw [hc] at h; simp at h
        | some lc =>
          rw [hc] at h
          cases hrest : build_constraints (mk_vars vals) cs with
          | none => rw [hrest] at h; simp at h
          | some tail =>
            rw [hrest] at h
            simp at h
            obtain ⟨htail, hbtail⟩ := ih hrest
            obtain ⟨hla, hba⟩ := make_lc_mk_vars_inv ha
            obtain ⟨hlb, hbb⟩ := make_lc_mk_vars_inv hb
            obtain ⟨hlc, hbc⟩ := make_lc_mk_vars_inv hc
            subst h htail hla hlb hlc
            constructor
            · simp [spec_translated]
            · intro u hu p hp
              rcases List.mem_cons.mp hu with huhd | hutl
              · subst huhd
                rcases List.mem_append.mp hp with hp1 | hp2
                · rcases List.mem_append.mp hp1 with hp11 | hp12
                  · exact hba p hp11
                  · exact hbb p hp12
                · exact hbc p hp2
              · exact hbtail u hutl p hp

omit [CommRing F] in
theorem build_constraints_mk_vars_eq {vals : List F} {cs : List (Constraint F)}
    (hb : ∀ t ∈ cs, ∀ p ∈ t.1 ++ t.2.1 ++ t.2.2, p.1 = 0 ∨ p.1 - 1 < vals.length) :
    build_constraints (mk_vars vals) cs = some (cs.map spec_translated) := by
  induction cs with
  | nil => rfl
  | cons t cs ih =>
    have hbt := hb t (List.mem_cons_self _ _)
    have hbtl : ∀ u ∈ cs, ∀ p ∈ u.1 ++ u.2.1 ++ u.2.2, p.1 = 0 ∨ p.1 - 1 < vals.length :=
      fun u hu => hb u (List.mem_cons_of_mem _ hu)
    have h1 : ∀ p ∈ t.1, p.1 = 0 ∨ p.1 - 1 < vals.length := fun p hp =>
      hbt p (List.mem_append.mpr (Or.inl (List.mem_append.mpr (Or.inl hp))))
    have h2 : ∀ p ∈ t.2.1, p.1 = 0 ∨ p.1 - 1 < vals.length := fun p hp =>
      hbt p (List.mem_append.mpr (Or.inl (List.mem_append.mpr (Or.inr hp))))
    have h3 : ∀ p ∈ t.2.2, p.1 = 0 ∨ p.1 - 1 < vals.length := fun p hp =>
      hbt p (List.mem_append.mpr (Or.inr hp))
    simp only [build_constraints]
    rw [make_lc_mk_vars_eq h1, make_lc_mk_vars_eq h2, make_lc_mk_vars_eq h3, ih hbtl]
    show some _ = _
    simp [spec_translated]

/-! ## Evaluation of translated linear combinations -/

/-- A translated linear combination evaluates, over the allocated values, to
the sparse dot product of the original R1CS terms against the full witness
vector `z`, provided the allocated values are the tail of `z` (`vals[j] =
z[j+1]`), the reserved slot holds one, and every term index stays within the
allocation. -/
theorem evalLC_spec_translated {vals z : List F} {l : List (Nat × F)}
    (hb : ∀ p ∈ l, p.1 = 0 ∨ p.1 - 1 < vals.length)
    (hz0 : z.getD 0 0 = 1)
    (hcorr : ∀ j, j < vals.length → vals[j]? = z[j + 1]?) :
    evalLC vals (spec_translated_lc l) = sparse_dot l z := by
  unfold evalLC sparse_dot spec_translated_lc
  rw [List.foldl_map]
  apply List.foldl_ext
  intro acc p hp
  congr 1
  congr 1
  by_cases h0 : p.1 = 0
  · rw [if_pos h0, h0]
    show (1 : F) = z.getD 0 0
    exact hz0.symm
  · have hlt : p.1 - 1 < vals.length := by
      rcases hb p hp with hc | hc
      · omega
      · exact hc
    rw [if_neg h0]
    show vals.getD (p.1 - 1) 0 = z.getD p.1 0
    rw [List.getD_eq_getElem?_getD, List.getD_eq_getElem?_getD,
      hcorr (p.1 - 1) hlt]
    congr 2
    omega

/-! ## Inversion of `synthesize` -/

/-- Every successful run of `synthesize` is fully characterised: the
allocation loops succeeded, producing the allocated values `vals`; the final
state carries the loop names, the values, and exactly the translated
constraint triples (whose indices are all within the allocation); and the
returned outputs follow the `num_pub_out` slicing of `vars`. -/
theorem synthesize_inv {r : R1CS F} {w : Option (List F)} {s : CSstate F}
    {out : List (AllocatedNum F)}
    (h : synthesize r w = some (s, out)) :
    ∃ vals, allocated_vals r w = some vals ∧
      s.names = var_names r ∧
      s.aux_values = vals ∧
      s.constraints = r.constraints.map spec_translated ∧
      (∀ t ∈ r.constraints, ∀ p ∈ t.1 ++ t.2.1 ++ t.2.2,
        p.1 = 0 ∨ p.1 - 1 < vals.length) ∧
      (r.num_pub_out = 0 → out = []) ∧
      (r.num_pub_out = 1 →
        ∃ v, (mk_vars vals)[0]? = some v ∧ out = [v]) ∧
      (2 ≤ r.num_pub_out → r.num_pub_out - 1 ≤ vals.length ∧
        out = (mk_vars vals).take (r.num_pub_out - 1)) := by
  unfold synthesize at h
  cases hv : allocated_vals r w with
  | none => rw [hv] at h; exact Option.noConfusion h
  | some vals =>
    rw [hv] at h
    dsimp only at h
    refine ⟨vals, rfl, ?_⟩
    cases hout : (match r.num_pub_out with
      | 0 => some ([] : List (AllocatedNum F))
      | 1 => ((mk_vars vals)[0]?).map fun v => [v]
      | n => if n - 1 ≤ (mk_vars vals).length
          then some ((mk_vars vals).take (n - 1)) else none) with
    | none =>
      rw [hout] at h
      exact Option.noConfusion h
    | some output =>
      rw [hout] at h
      cases hres : build_constraints (mk_vars vals) r.constraints with
      | none => rw [hres] at h; exact Option.noConfusion h
      | some res =>
        rw [hres] at h
        dsimp only at h
        rw [Option.some_inj, Prod.mk.injEq] at h
        obtain ⟨hs, hout2⟩ := h
        obtain ⟨hresform, hbounds⟩ := build_constraints_mk_vars_inv hres
        subst hs hout2 hresform
        refine ⟨rfl, rfl, rfl, hbounds, ?_, ?_, ?_⟩
        · intro hp0
          rw [hp0] at hout
          simpa using hout.symm
        · intro hp1
          rw [hp1] at hout
          exact (Option.map_eq_some'.mp hout).elim
            fun v hv2 => ⟨v, hv2.1, hv2.2.symm⟩
        · intro hp2
          obtain ⟨n, hn⟩ : ∃ n, r.num_pub_out = n + 2 :=
            ⟨r.num_pub_out - 2, by omega⟩
          rw [hn] at hout
          have hout2 : (if n + 2 - 1 ≤ (mk_vars vals).length
              then some ((mk_vars vals).take (n + 2 - 1)) else none) =
              some output := hout
          by_cases hle : n + 2 - 1 ≤ (mk_vars vals).length
          · rw [if_pos hle] at hout2
            have hform := Option.some_inj.mp hout2
            rw [mk_vars_length] at hle
            rw [hn]
            exact ⟨by omega, hform.symm⟩
          · rw [if_neg hle] at hout2
            exact Option.noConfusion hout2

/-! ## Remaining helper lemmas -/

omit [CommRing F] in
theorem mk_vars_map_var (vals : List F) :
    (mk_vars vals).map AllocatedNum.var =
      (List.range vals.length).map Variable.aux := by
  unfold mk_vars
  rw [List.map_map, ← List.enum_map_fst vals, List.map_map]
  rfl

theorem take_one_of_getElem {α : Type} {l : List α} {v : α}
    (h : l[0]? = some v) : l.take 1 = [v] := by
  cases l with
  | nil => exact Option.noConfusion h
  | cons a l =>
    simp at h
    rw [h]
    rfl

theorem fnv1a64_lt (bytes : List Nat) : fnv1a64 bytes < 2 ^ 64 := by
  unfold fnv1a64
  suffices hgen : ∀ (l : List Nat) (a : Nat), a < 2 ^ 64 →
      l.foldl (fun h b => ((h ^^^ b) * fnv_prime_64) % 2 ^ 64) a < 2 ^ 64 by
    exact hgen bytes fnv_offset_basis (by norm_num [fnv_offset_basis])
  intro l
  induction l with
  | nil => intro a ha; simpa using ha
  | cons b l ih =>
    intro a ha
    exact ih _ (Nat.mod_lt _ (by norm_num))

/-! ## Claim 1 — soundness of `synthesize` for satisfying witnesses -/

/-- C1 (counterexample to the claim as stated): the witness vector `[2]`
satisfies the single constraint of `constOnlyR1CS` (`2·1 · 2·1 = 2·2` reads
`2 · 2 = 4`), yet `synthesize` succeeds and produces an enforced constraint
that is *not* satisfied (`1 · 1 ≠ 2`), because every constraint term with
index 0 is rebuilt over the constant-one variable while the dot products use
the witness's slot 0, here `2 ≠ 1`. -/
theorem claim1_counterexample :
    constOnlyR1CS.satisfied [2] ∧
    ∃ s out, synthesize constOnlyR1CS (some [2]) = some (s, out) ∧
      ¬ s.satisfied := by
  refine ⟨by decide, _, _, rfl, by decide⟩

/-- C1 (amended): for a model with the reserved constant slot
(`num_inputs ≥ 1`) and a witness vector whose slot 0 holds the field's one,
if the witness satisfies every constraint triple (`A·z ∘ B·z = C·z`) and
`synthesize` succeeds, then every constraint enforced in the produced
constraint system is satisfied: left · right = output exactly. -/
theorem claim1_synthesize_sound (r : R1CS F) (z : List F) (s : CSstate F)
    (out : List (AllocatedNum F))
    (h1 : 1 ≤ r.num_inputs)
    (hz0 : z.getD 0 0 = 1)
    (hsat : r.satisfied z)
    (h : synthesize r (some z) = some (s, out)) :
    s.satisfied := by
  obtain ⟨vals, hvals, _, haux, hcons, hbounds, -⟩ := synthesize_inv h
  have hcorr := allocated_vals_corr h1 hvals
  intro c hc
  rw [hcons, List.mem_map] at hc
  obtain ⟨t, ht, hct⟩ := hc
  subst hct
  rw [haux]
  unfold spec_translated
  dsimp only
  have hb1 : ∀ p ∈ t.1, p.1 = 0 ∨ p.1 - 1 < vals.length := fun p hp =>
    hbounds t ht p (List.mem_append.mpr (Or.inl (List.mem_append.mpr (Or.inl hp))))
  have hb2 : ∀ p ∈ t.2.1, p.1 = 0 ∨ p.1 - 1 < vals.length := fun p hp =>
    hbounds t ht p (List.mem_append.mpr (Or.inl (List.mem_append.mpr (Or.inr hp))))
  have hb3 : ∀ p ∈ t.2.2, p.1 = 0 ∨ p.1 - 1 < vals.length := fun p hp =>
    hbounds t ht p (List.mem_append.mpr (Or.inr hp))
  rw [evalLC_spec_translated hb1 hz0 hcorr,
    evalLC_spec_translated hb2 hz0 hcorr,
    evalLC_spec_translated hb3 hz0 hcorr]
  exact hsat t ht

/-- C1 witness: the amended theorem applied to the §8 scenario, whose
hypotheses all hold concretely. -/
theorem claim1_witness : CSstate.satisfied squareState :=
  claim1_synthesize_sound squareR1CS squareWitness squareState squareOutput
    (by decide) (by decide) (by decide) (by decide)

/-! ## Claim 2 — one translated constraint per triple, in order -/

/-- C2: a successful `synthesize` run enforces exactly one multiplicative
constraint per R1CS triple, in the order the triples appear, and each
enforced triple is the spec-described translation of the R1CS triple (index
0 ↦ the constant-one term scaled by the coefficient, index `k > 0` ↦ the
coefficient times the `(k-1)`-th allocated variable). -/
theorem claim2_constraint_translation (r : R1CS F) (w : Option (List F))
    (s : CSstate F) (out : List (AllocatedNum F))
    (h : synthesize r w = some (s, out)) :
    s.constraints.length = r.constraints.length ∧
    ∀ i : Nat, s.constraints[i]? = (r.constraints[i]?).map spec_translated := by
  obtain ⟨vals, -, -, -, hcons, -⟩ := synthesize_inv h
  rw [hcons]
  exact ⟨by simp, fun i => by simp⟩

/-- C2 witness: the theorem applied to the §8 scenario, with the translated
constraint checked at index 0. -/
theorem claim2_witness :
    squareState.constraints.length = squareR1CS.constraints.length ∧
    squareState.constraints[0]? =
      (squareR1CS.constraints[0]?).map spec_translated :=
  have h := claim2_constraint_translation squareR1CS (some squareWitness)
    squareState squareOutput (by decide)
  ⟨h.1, h.2 0⟩

/-! ## Claim 3 — public-output slicing -/

theorem allocated_vals_length {r : R1CS F} {w : Option (List F)}
    {vals : List F} (h : allocated_vals r w = some vals) :
    vals.length = (r.num_inputs - 1) + r.num_aux := by
  cases w with
  | none =>
    rw [allocated_vals_none] at h
    rw [← Option.some_inj.mp h]
    simp
  | some z => exact (allocated_vals_some_inv h).1

/-- C3: on any successful run over a model whose outputs fit inside the
public signals (`num_pub_out < num_inputs`), the returned outputs follow the
slicing rule over the allocated public variables (the first `num_inputs - 1`
entries of the allocation): `num_pub_out = 0` returns the empty sequence;
`num_pub_out = 1` returns exactly the single first allocated public
variable; `num_pub_out ≥ 2` returns exactly the first `num_pub_out - 1`
allocated public variables. -/
theorem claim3_output_slicing (r : R1CS F) (w : Option (List F))
    (s : CSstate F) (out : List (AllocatedNum F))
    (hpo : r.num_pub_out < r.num_inputs)
    (h : synthesize r w = some (s, out)) :
    ∃ vars, allocated_vars r w = some vars ∧
      (r.num_pub_out = 0 → out = []) ∧
      (r.num_pub_out = 1 →
        out = (vars.take (r.num_inputs - 1)).take 1 ∧ out.length = 1) ∧
      (2 ≤ r.num_pub_out →
        out = (vars.take (r.num_inputs - 1)).take (r.num_pub_out - 1) ∧
        out.length = r.num_pub_out - 1) := by
  obtain ⟨vals, hvals, -, -, -, -, c0, c1, c2⟩ := synthesize_inv h
  refine ⟨mk_vars vals, by rw [allocated_vars, hvals]; rfl, c0, ?_, ?_⟩
  · intro h1
    obtain ⟨v, hv0, hout⟩ := c1 h1
    subst hout
    refine ⟨?_, rfl⟩
    rw [List.take_take]
    have hmin : min 1 (r.num_inputs - 1) = 1 := by omega
    rw [hmin]
    exact (take_one_of_getElem hv0).symm
  · intro h2
    obtain ⟨hle, hout⟩ := c2 h2
    subst hout
    constructor
    · rw [List.take_take]
      congr 1
      omega
    · rw [List.length_take, mk_vars_length]
      omega

/-- C3 witness: the §8 scenario has `num_pub_out = 1` and returns exactly
the single first allocated public variable. -/
theorem claim3_witness :
    allocated_vars squareR1CS (some squareWitness) = some squareVars ∧
    squareOutput = (squareVars.take 1).take 1 ∧ squareOutput.length = 1 := by
  obtain ⟨vars, hv, -, h1, -⟩ := claim3_output_slicing squareR1CS
    (some squareWitness) squareState squareOutput (by decide) (by decide)
  have hsv : vars = squareVars := by
    have hv2 : allocated_vars squareR1CS (some squareWitness) =
        some squareVars := by decide
    rw [hv] at hv2
    exact Option.some_inj.mp hv2
  subst hsv
  obtain ⟨ho, hl⟩ := h1 rfl
  exact ⟨hv, ho, hl⟩

/-! ## Claim 4 — allocation values from the witness, or all ones -/

/-- C4: a successful run allocates `(num_inputs - 1) + num_aux` values: for
each public index `i` in `1..num_inputs` the value `witness[i]` (position
`i - 1` of the allocation), then for each aux index `i` in `0..num_aux` the
value `witness[num_inputs + i]`; the setup-mode run (`witness = None`)
assigns the field's one to every allocated variable instead. -/
theorem claim4_allocation_values (r : R1CS F) (z : List F)
    (s : CSstate F) (out : List (AllocatedNum F))
    (s2 : CSstate F) (out2 : List (AllocatedNum F))
    (h : synthesize r (some z) = some (s, out))
    (h2 : synthesize r none = some (s2, out2)) :
    s.aux_values.length = (r.num_inputs - 1) + r.num_aux ∧
    (∀ i, i < r.num_inputs - 1 → s.aux_values[i]? = z[1 + i]?) ∧
    (∀ i, i < r.num_aux →
      s.aux_values[(r.num_inputs - 1) + i]? = z[r.num_inputs + i]?) ∧
    s2.aux_values = List.replicate ((r.num_inputs - 1) + r.num_aux) 1 := by
  obtain ⟨vals, hvals, -, haux, -⟩ := synthesize_inv h
  obtain ⟨vals2, hvals2, -, haux2, -⟩ := synthesize_inv h2
  obtain ⟨hlen, hpub, hauxv⟩ := allocated_vals_some_inv hvals
  subst haux haux2
  refine ⟨hlen, hpub, hauxv, ?_⟩
  rw [allocated_vals_none] at hvals2
  exact (Option.some_inj.mp hvals2).symm

/-- C4 witness: the §8 scenario, checking the public value at allocation
position 0 and the aux value, and the all-ones setup run. -/
theorem claim4_witness :
    squareState.aux_values.length =
      (squareR1CS.num_inputs - 1) + squareR1CS.num_aux ∧
    squareState.aux_values[0]? = squareWitness[1 + 0]? ∧
    squareState.aux_values[(squareR1CS.num_inputs - 1) + 0]? =
      squareWitness[squareR1CS.num_inputs + 0]? ∧
    squareNoneState.aux_values =
      List.replicate ((squareR1CS.num_inputs - 1) + squareR1CS.num_aux) 1 :=
  have h := claim4_allocation_values squareR1CS squareWitness squareState
    squareOutput squareNoneState squareNoneOutput (by decide) (by decide)
  ⟨h.1, h.2.1 0 (by decide), h.2.2.1 0 (by decide), h.2.2.2⟩

/-! ## Claim 9 — out-of-bounds witness indexing is a panic, not an error -/

/-- C9: `synthesize` indexes a supplied witness without bounds checks; with
a witness shorter than the public-signal reads require (`len < num_inputs`
while `num_inputs ≥ 2` makes the loop read index `num_inputs - 1`), the
indexing fails (Rust panics; the embedded lookup returns `none`) instead of
producing any `SynthesisError` value. -/
theorem claim9_short_witness_panics (r : R1CS F) (z : List F)
    (h2 : 2 ≤ r.num_inputs) (hshort : z.length < r.num_inputs) :
    synthesize r (some z) = none := by
  have hg : getVals (some z) 1 (r.num_inputs - 1) = none :=
    getVals_some_none (by omega) (by omega)
  have hva : allocated_vals r (some z) = none := by
    unfold allocated_vals
    rw [hg]
    rfl
  unfold synthesize
  rw [hva]

/-- C9 witness: the §8 model (`num_inputs = 2`, `num_aux = 1`) with the
one-element witness `[1]` reaches the out-of-bounds read. -/
theorem claim9_witness : synthesize squareR1CS (some [(1 : ZMod 13)]) = none :=
  claim9_short_witness_panics squareR1CS [1] (by decide) (by decide)

/-! ## Claim 6 — the signal-identifier hash -/

/-- C6: the signal-identifier function returns exactly the high and low
32-bit halves of the 64-bit FNV-1a hash of the name's bytes: both components
fit in 32 bits and recombine to the full hash.  (Determinism is immediate:
`fnv` is a pure function of the name.) -/
theorem claim6_fnv_split (inp : String) :
    (fnv inp).1 < 2 ^ 32 ∧ (fnv inp).2 < 2 ^ 32 ∧
      (fnv inp).1 * 2 ^ 32 + (fnv inp).2 = fnv1a64 (strBytes inp) := by
  have hlt := fnv1a64_lt (strBytes inp)
  unfold fnv
  dsimp only
  rw [Nat.shiftRight_eq_div_pow]
  refine ⟨?_, Nat.mod_lt _ (by norm_num), ?_⟩
  · apply Nat.div_lt_of_lt_mul
    calc fnv1a64 (strBytes inp) < 2 ^ 64 := hlt
      _ = 2 ^ 32 * 2 ^ 32 := by norm_num
  · rw [Nat.mul_comm]
    exact Nat.div_add_mod _ _

/-- C6 witness: the split property at the concrete signal name used by the
repository's test circuit, whose FNV-1a hash is
`0x1f5962a2ce9803c8 = 525951650 · 2^32 + 3466068936`. -/
theorem claim6_witness :
    (fnv "main").1 < 2 ^ 32 ∧ (fnv "main").2 < 2 ^ 32 ∧
      (fnv "main").1 * 2 ^ 32 + (fnv "main").2 = fnv1a64 (strBytes "main") :=
  claim6_fnv_split "main"

/-! ## Claim 8 — the §8 scenario's output value -/

/-- C8 (counterexample to the claim as stated): on the model
`num_inputs = 2`, `num_aux = 1`, `num_pub_out = 1` with constraint
`x · x = y` and witness `[1, 3, 9]`, `synthesize` returns one output
variable whose value is `3` (the public variable holding `witness[1]`), and
`3 ≠ 9`. -/
theorem claim8_counterexample :
    (synthesize squareR1CS (some squareWitness)).map
        (fun p => p.2.map AllocatedNum.value) = some [3] ∧
      ((3 : ZMod 13) ≠ 9) := by decide

/-- C8 (amended): on that model and witness, `synthesize` returns exactly
one output variable and its assigned value equals `3`, i.e. `witness[1]`
(the value `9` would be returned for the output-first witness ordering
`[1, 9, 3]`). -/
theorem claim8_output_value :
    ∃ s out, synthesize squareR1CS (some squareWitness) = some (s, out) ∧
      out.map AllocatedNum.value = [3] :=
  ⟨_, _, rfl, by decide⟩

/-! ## Claim 10 — a cleanup failure is only a warning -/

omit [CommRing F] in
/-- C10: the result of `generate_witness_from_wasm` is identical whether the
removal of the temporary input file fails or succeeds — a cleanup failure is
never surfaced to the caller — and whenever the steps before cleanup
succeeded, a failing removal only adds the warning line to what is
printed. -/
theorem claim10_cleanup_only_warns (env : WasmEnv F) (msg : String) :
    (generate_witness_from_wasm
        { env with remove_input := Except.error msg }).1 =
      (generate_witness_from_wasm
        { env with remove_input := Except.ok () }).1 ∧
    (env.current_dir.isOk → env.write_input.isOk → env.run_node.isOk →
      "warning: could not cleanup temporary files" ∈
        (generate_witness_from_wasm
          { env with remove_input := Except.error msg }).2) := by
  obtain ⟨cd, wi, rn, ri, lw⟩ := env
  constructor
  · cases cd <;> cases wi <;> cases rn <;> cases lw <;> rfl
  · intro h1 h2 h3
    cases cd with
    | error e => exact Bool.noConfusion h1
    | ok d =>
      cases wi with
      | error e => exact Bool.noConfusion h2
      | ok u =>
        cases rn with
        | error e => exact Bool.noConfusion h3
        | ok outp =>
          cases lw <;> simp [generate_witness_from_wasm]

/-- C10 witness: a concrete environment where every step before cleanup
succeeds and the removal fails. -/
theorem claim10_witness :
    (generate_witness_from_wasm
        { demoWasmEnv with remove_input := Except.error "denied" }).1 =
      (generate_witness_from_wasm
        { demoWasmEnv with remove_input := Except.ok () }).1 ∧
    "warning: could not cleanup temporary files" ∈
      (generate_witness_from_wasm
        { demoWasmEnv with remove_input := Except.error "denied" }).2 :=
  ⟨(claim10_cleanup_only_warns demoWasmEnv "denied").1,
    (claim10_cleanup_only_warns demoWasmEnv "denied").2 rfl rfl rfl⟩

/-! ## Claim 5 — setup mode allocates the same shape -/

/-- C5: if `synthesize` succeeds on a concrete witness, the setup-mode run
(`witness = None`) also succeeds and allocates the same number of variables,
under the same namespace names and in the same order (the same variables, in
the same order, as shown on the allocated `vars` vectors), enforcing the
same constraints; the two runs differ only in the assigned values, which are
all one in the setup run. -/
theorem claim5_setup_mode_shape (r : R1CS F) (z : List F)
    (s : CSstate F) (out : List (AllocatedNum F))
    (h : synthesize r (some z) = some (s, out)) :
    ∃ s2 out2, synthesize r none = some (s2, out2) ∧
      s2.names = s.names ∧
      s2.aux_values.length = s.aux_values.length ∧
      s2.aux_values = List.replicate s.aux_values.length 1 ∧
      s2.constraints = s.constraints ∧
      (allocated_vars r none).map (List.map AllocatedNum.var) =
        (allocated_vars r (some z)).map (List.map AllocatedNum.var) := by
  obtain ⟨vals, hvals, hnames, haux, hcons, hbounds, c0, c1, c2⟩ :=
    synthesize_inv h
  have hlen : vals.length = (r.num_inputs - 1) + r.num_aux :=
    allocated_vals_length hvals
  have hnone := allocated_vals_none r
  have hlen2 : (List.replicate ((r.num_inputs - 1) + r.num_aux) (1 : F)).length
      = vals.length := by
    rw [List.length_replicate, hlen]
  have hbounds2 : ∀ t ∈ r.constraints, ∀ p ∈ t.1 ++ t.2.1 ++ t.2.2,
      p.1 = 0 ∨ p.1 - 1 <
        (List.replicate ((r.num_inputs - 1) + r.num_aux) (1 : F)).length := by
    intro t ht p hp
    rw [hlen2]
    exact hbounds t ht p hp
  have hbuild := build_constraints_mk_vars_eq hbounds2
  have hout2 : ∃ output2, (match r.num_pub_out with
      | 0 => some ([] : List (AllocatedNum F))
      | 1 => ((mk_vars (List.replicate ((r.num_inputs - 1) + r.num_aux)
          (1 : F)))[0]?).map fun v => [v]
      | n => if n - 1 ≤ (mk_vars (List.replicate ((r.num_inputs - 1) +
            r.num_aux) (1 : F))).length
          then some ((mk_vars (List.replicate ((r.num_inputs - 1) +
            r.num_aux) (1 : F))).take (n - 1)) else none) = some output2 := by
    rcases hnp : r.num_pub_out with _ | _ | n
    · exact ⟨[], rfl⟩
    · obtain ⟨v, hv0, -⟩ := c1 hnp
      rw [mk_vars_getElem] at hv0
      obtain ⟨v0, hv00, -⟩ := Option.map_eq_some'.mp hv0
      have hpos : 0 < (r.num_inputs - 1) + r.num_aux := by
        have := (List.getElem?_eq_some.mp hv00).1
        omega
      have hv2 : (mk_vars (List.replicate ((r.num_inputs - 1) + r.num_aux)
          (1 : F)))[0]? = some { var := Variable.aux 0, value := 1 } := by
        rw [mk_vars_getElem, List.getElem?_replicate, if_pos hpos]
        rfl
      exact ⟨[{ var := Variable.aux 0, value := 1 }], by rw [hv2]; rfl⟩
    · obtain ⟨hle, -⟩ := c2 (by omega)
      rw [hnp] at hle
      have hcond : n + 1 + 1 - 1 ≤ (mk_vars (List.replicate
          ((r.num_inputs - 1) + r.num_aux) (1 : F))).length := by
        rw [mk_vars_length, hlen2]
        omega
      refine ⟨(mk_vars (List.replicate ((r.num_inputs - 1) + r.num_aux)
          (1 : F))).take (n + 1 + 1 - 1), ?_⟩
      show (if n + 1 + 1 - 1 ≤ (mk_vars (List.replicate ((r.num_inputs - 1) +
          r.num_aux) (1 : F))).length
        then some ((mk_vars (List.replicate ((r.num_inputs - 1) +
          r.num_aux) (1 : F))).take (n + 1 + 1 - 1)) else none) = _
      rw [if_pos hcond]
  obtain ⟨output2, hout2⟩ := hout2
  have h2 : synthesize r none = some (CSstate.mk (var_names r)
      (List.replicate ((r.num_inputs - 1) + r.num_aux) 1)
      (r.constraints.map spec_translated), output2) := by
    unfold synthesize
    rw [hnone]
    dsimp only
    rw [hout2, hbuild]
  refine ⟨_, output2, h2, ?_, ?_, ?_, ?_, ?_⟩
  · rw [hnames]
  · rw [haux, hlen2]
  · rw [haux, hlen]
  · rw [hcons]
  · rw [allocated_vars, allocated_vars, hnone, hvals]
    show some ((mk_vars _).map _) = some ((mk_vars _).map _)
    rw [mk_vars_map_var, mk_vars_map_var, hlen2]

/-- C5 witness: the §8 scenario's setup-mode run has the same names and
constraints as the concrete run, with all values one. -/
theorem claim5_witness :
    synthesize squareR1CS none = some (squareNoneState, squareNoneOutput) ∧
    squareNoneState.names = squareState.names ∧
    squareNoneState.aux_values =
      List.replicate squareState.aux_values.length 1 ∧
    squareNoneState.constraints = squareState.constraints := by
  obtain ⟨s2, out2, h2, hn, -, hrep, hc, -⟩ := claim5_setup_mode_shape
    squareR1CS squareWitness squareState squareOutput (by decide)
  have hconc : synthesize squareR1CS none =
      some (squareNoneState, squareNoneOutput) := by decide
  rw [hconc] at h2
  obtain ⟨hs, -⟩ := Prod.mk.injEq _ _ _ _ ▸ Option.some_inj.mp h2
  rw [← hs] at hn hrep hc
  exact ⟨hconc, hn, hrep, hc⟩

end CircomScotia
